import Mathlib

/-!
# Deployment clean-up: release names and orphan classification

A shallow embedding of the two sweep programs of the repository
(`cmd/helm/helm.go` and `cmd/storage/main.go`) together with the properties
of the name derivation and of the keep/delete classification.

Go strings are byte sequences, `len` counts bytes and `s[0:53]` cuts bytes, so
a string is modelled as the list of its bytes.
-/

namespace DeploymentCleanup

/-! ## Strings -/

/-- A Go string: the sequence of its bytes, each byte a natural number below 256. -/
abbrev GoString := List Nat

/-- The bytes of an ASCII string literal. -/
def ascii (s : String) : GoString := s.toList.map Char.toNat

/-- The byte of the character `-`. -/
def hyphen : Nat := 45

/-- Membership in the character class `[a-zA-Z0-9]`. -/
def isAlnum (c : Nat) : Bool :=
  (97 ≤ c && c ≤ 122) || (65 ≤ c && c ≤ 90) || (48 ≤ c && c ≤ 57)

/-- The scan of `regexp.ReplaceAllString` for the pattern `[^a-zA-Z0-9]+` and the
replacement `-`. The flag tells whether the scan is inside a match: a match starts
at the first byte outside the class, greedily extends over every following byte
outside the class, and is emitted as one hyphen; bytes of the class are copied.
Every byte of a multi-byte or invalid UTF-8 sequence is at least 128, so the
rune-level match of the library covers exactly the bytes outside the class. -/
def replaceScan : Bool → GoString → GoString
  | _, [] => []
  | inMatch, c :: cs =>
    if isAlnum c then c :: replaceScan false cs
    else if inMatch then replaceScan true cs
    else hyphen :: replaceScan true cs

/-- The call `re.ReplaceAllString(branch, "-")` with `re = [^a-zA-Z0-9]+`. -/
def ReplaceAllString (src : GoString) : GoString := replaceScan false src

/-- Lower-casing of one ASCII byte: `c += 'a' - 'A'` for `'A' <= c <= 'Z'`. -/
def toLowerByte (c : Nat) : Nat := if 65 ≤ c ∧ c ≤ 90 then c + 32 else c

/-- The call `strings.ToLower(s)` on an ASCII string, which is all `releaseName`
passes to it: the output of `ReplaceAllString` holds only letters, digits and
hyphens. -/
def ToLower (s : GoString) : GoString := s.map toLowerByte

/-- The call `strings.Index(s, sep)` for a one-byte separator: the position of the
first occurrence, `none` standing for the result `-1`. -/
def Index : GoString → Nat → Option Nat
  | [], _ => none
  | c :: cs, sep => if c = sep then some 0 else (Index cs sep).map (· + 1)

/-- The call `strings.Count(s, sep)` for a one-byte separator. -/
def Count (s : GoString) (sep : Nat) : Nat := s.count sep

/-- The loop of `strings.Split`: with `k` cuts left, cut at the next separator;
the remainder of the string is the last part. -/
def splitLoop (sep : Nat) : Nat → GoString → List GoString
  | 0, s => [s]
  | k + 1, s =>
    match Index s sep with
    | none => [s]
    | some m => s.take m :: splitLoop sep k (s.drop (m + 1))

/-- The call `strings.Split(s, sep)` for a one-byte separator: the library sizes
the result as `Count(s, sep) + 1` parts and cuts `Count(s, sep)` times. -/
def Split (s : GoString) (sep : Nat) : List GoString := splitLoop sep (Count s sep) s

/-- The decimal digits of a natural number. -/
def decimal (n : Nat) : GoString := (Nat.toDigits 10 n).map Char.toNat

/-- The call `strconv.Itoa(i)`: decimal digits, with a leading `-` for a negative
number. -/
def Itoa (i : Int) : GoString :=
  if i < 0 then hyphen :: decimal (-i).toNat else decimal i.toNat

/-- An error value returned by a client library. `storageError` is an error that
satisfies the type assertion `err.(azblob.StorageError)` and carries its service
code; `other` is any other error. -/
inductive Error where
  | storageError (serviceCode : GoString)
  | other (message : GoString)
  deriving DecidableEq, Repr

/-- How a sweep ends: it returns after its loop with the deletions it requested,
in order, it stops in `log.Fatal`, or it stops in a run-time panic, in both cases
with the deletions requested until then. -/
inductive Outcome (α : Type) where
  | completed (deleted : List α)
  | fatal (deleted : List α)
  | panicked (deleted : List α)
  deriving DecidableEq, Repr

/-- The fields of a `url.URL` that tell which resource a request addresses. -/
structure URL where
  Scheme : GoString
  Opaque : GoString
  Host : GoString
  Path : GoString
  RawQuery : GoString
  Fragment : GoString
  deriving DecidableEq, Repr

/-! ## `cmd/helm/helm.go` -/

namespace Helm

/-- The type `RepositoryData` of `helm.go`. -/
structure RepositoryData where
  orgName : GoString
  branches : List GoString
  pullRequests : List Int
  deriving DecidableEq, Repr

/-- The global `config`, a `map[string]RepositoryData`: an association list in
which the first binding of a key is the map's entry. -/
abbrev Config := List (GoString × RepositoryData)

/-- A Helm release; the sweep reads only its name. -/
structure Release where
  Name : GoString
  deriving DecidableEq, Repr

/-- The function `releaseName` of `helm.go`. -/
def releaseName (repo : GoString) (branch : GoString) : GoString :=
  let s := ReplaceAllString branch
  let releaseName := repo ++ ascii "-" ++ ToLower s
  if releaseName.length > 53 then
    releaseName.take 53
  else
    releaseName

/-- The loop "Check branches" of `main`, started with the current value of `match`. -/
def checkBranches (repoName : GoString) (release : Release) (branches : List GoString)
    (matched : Bool) : Bool :=
  branches.foldl
    (fun matched branch => if releaseName repoName branch = release.Name then true else matched)
    matched

/-- The loop "Check pull requests" of `main`, started with the current value of `match`. -/
def checkPullRequests (repoName : GoString) (release : Release) (pullRequests : List Int)
    (matched : Bool) : Bool :=
  pullRequests.foldl
    (fun matched pr =>
      if releaseName repoName (ascii "pr-" ++ Itoa pr) = release.Name then true else matched)
    matched

/-- One iteration of the loop over the releases in `main`. The state is the list of
names passed to `client.DeleteRelease` so far; the call is recorded whether or not
it returns an error, since the error is only logged. -/
def sweepStep (config : Config) (deleted : List GoString) (release : Release) :
    List GoString :=
  let parts := Split release.Name hyphen
  if h : parts.length > 1 then
    let repoName := parts[0]
    match config.lookup repoName with
    | some repositoryData =>
      let matched := false
      let matched := checkBranches repoName release repositoryData.branches matched
      let matched := checkPullRequests repoName release repositoryData.pullRequests matched
      if !matched then deleted ++ [release.Name] else deleted
    | none => deleted
  else
    deleted

/-- The loop over the releases in `main`: the names passed to `client.DeleteRelease`,
in order. -/
def sweep (config : Config) (releases : List Release) : List GoString :=
  releases.foldl (sweepStep config) []

/-- The getter `res.GetReleases()` of the response, which answers `nil` for a `nil`
response. -/
def GetReleases (res : Option (List Release)) : List Release :=
  match res with
  | some releases => releases
  | none => []

/-- The function `main` from the call `client.ListReleases` on, given the `config`
built before and the pair `res, err` the call returned. A listing error is passed
to `log.Println`, which is the first component of the result, and the run goes on
with the releases of the response. -/
def main (config : Config) (res : Option (List Release)) (err : Option Error) :
    List Error × Outcome GoString :=
  let printed :=
    match err with
    | some e => [e]
    | none => []
  let releases := GetReleases res
  (printed, Outcome.completed (sweep config releases))

end Helm

/-! ## `cmd/storage/main.go` -/

namespace Storage

/-- The type `RepositoryData` of `main.go`. -/
structure RepositoryData where
  orgName : GoString
  repoName : GoString
  branches : List GoString
  deriving DecidableEq, Repr

/-- A listed blob: its name and its metadata, a `map[string]string`. -/
structure BlobItem where
  Name : GoString
  Metadata : List (GoString × GoString)
  deriving DecidableEq, Repr

/-- The map index `blob.Metadata[key]`, which is the empty string for an absent key. -/
def metadataValue (blob : BlobItem) (key : GoString) : GoString :=
  (blob.Metadata.lookup key).getD []

/-- The constant `azblob.ServiceCodeContainerNotFound`. -/
def ServiceCodeContainerNotFound : GoString := ascii "ContainerNotFound"

/-- The inner loop of `handleRepo` over `repo.branches`, started with `keep`. -/
def keepLoop (blob : BlobItem) (branches : List GoString) (keep : Bool) : Bool :=
  branches.foldl
    (fun keep branch => if branch = metadataValue blob (ascii "branch") then true else keep)
    keep

/-- The loop over the listed blobs in `handleRepo`. The state is the list of the
URLs passed to `azblob.NewBlobURL` and then to `blobURL.Delete` so far. For a blob
that is not kept the address `fmt.Sprintf("%s/%s", u.String(), blob.Name)` is given
to `url.Parse`, the error of which is discarded: when the call fails, `bu` is `nil`
and `*bu` is a nil pointer dereference, which ends the loop and the run.
`urlParse` is the library call `url.Parse`, `none` standing for its error, and
`base` is the value of `u.String()`. -/
def blobLoop (urlParse : GoString → Option URL) (base : GoString) (repo : RepositoryData) :
    List BlobItem → List URL → Outcome URL
  | [], deleted => Outcome.completed deleted
  | blob :: rest, deleted =>
    let keep := false
    let keep := keepLoop blob repo.branches keep
    if !keep then
      match urlParse (base ++ ascii "/" ++ blob.Name) with
      | some bu => blobLoop urlParse base repo rest (deleted ++ [bu])
      | none => Outcome.panicked deleted
    else
      blobLoop urlParse base repo rest deleted

/-- The function `handleRepo` from the return of `containerURL.ListBlobsFlatSegment`
on, given the pair `response, err` that the call returned, `blobItems` being
`response.Segment.BlobItems`. The container URL `u` was parsed and dereferenced
before the call; `base` is the value of `u.String()` and `urlParse` is the library
call `url.Parse`. -/
def handleRepo (urlParse : GoString → Option URL) (base : GoString) (repo : RepositoryData)
    (blobItems : List BlobItem) (err : Option Error) : Outcome URL :=
  match err with
  | some (Error.storageError serviceCode) =>
    if serviceCode = ServiceCodeContainerNotFound then
      Outcome.completed []
    else
      Outcome.fatal []
  | some (Error.other _) => Outcome.fatal []
  | none => blobLoop urlParse base repo blobItems []

end Storage

/-! ## The library call `url.Parse` -/

/-- The call `strings.Cut(s, sep)` for a one-byte separator: the parts before and
after the first separator, the whole string and the empty string without one. -/
def Cut (s : GoString) (sep : Nat) : GoString × GoString :=
  match Index s sep with
  | some m => (s.take m, s.drop (m + 1))
  | none => (s, [])

/-- The function `ishex` of `net/url`. -/
def ishex (c : Nat) : Bool :=
  (48 ≤ c && c ≤ 57) || (97 ≤ c && c ≤ 102) || (65 ≤ c && c ≤ 70)

/-- The function `unhex` of `net/url`. -/
def unhex (c : Nat) : Nat :=
  if 48 ≤ c ∧ c ≤ 57 then c - 48
  else if 97 ≤ c ∧ c ≤ 102 then c - 97 + 10
  else if 65 ≤ c ∧ c ≤ 70 then c - 65 + 10
  else 0

/-- The function `unescape` of `net/url` in the modes of a path and of a fragment:
a `%` followed by two hexadecimal digits is the byte they spell, any other `%` is
the error `invalid URL escape`, and every other byte stays. -/
def unescape : GoString → Option GoString
  | [] => some []
  | c :: cs =>
    if c = 37 then
      match cs with
      | h1 :: h2 :: rest =>
        if ishex h1 && ishex h2 then
          (unescape rest).map (fun t => (unhex h1 * 16 + unhex h2) :: t)
        else none
      | _ => none
    else (unescape cs).map (fun t => c :: t)

/-- The loop of `getScheme` of `net/url` at position `i`, `seen` being the bytes
before it in reverse: letters go on, a digit, `+`, `-` or `.` goes on except at the
start, a colon ends the scheme and is an error at the start, and any other byte
means that there is no scheme. The outer `none` is the error. -/
def schemeScan (rawURL : GoString) : GoString → GoString → Option (GoString × GoString)
  | _, [] => some ([], rawURL)
  | seen, c :: cs =>
    if (97 ≤ c && c ≤ 122) || (65 ≤ c && c ≤ 90) then schemeScan rawURL (c :: seen) cs
    else if (48 ≤ c && c ≤ 57) || c = 43 || c = 45 || c = 46 then
      if seen = [] then some ([], rawURL) else schemeScan rawURL (c :: seen) cs
    else if c = 58 then
      if seen = [] then none else some (seen.reverse, cs)
    else some ([], rawURL)

/-- The function `getScheme` of `net/url`. -/
def getScheme (rawURL : GoString) : Option (GoString × GoString) :=
  schemeScan rawURL [] rawURL

/-- The function `stringContainsCTLByte` of `net/url`. -/
def stringContainsCTLByte (s : GoString) : Bool := s.any (fun b => b < 32 || b = 127)

/-- The call `url.Parse(rawURL)`, `none` standing for the `nil` URL that comes with
an error. The raw URL is cut at the first `#`; a control byte before it is an
error; the scheme is split off and lower-cased; the query is cut at the first `?`;
a rest without a leading `/` is opaque under a scheme and must not hold a colon in
its first segment otherwise; after `//` the authority runs to the next `/`; the
path and the fragment are unescaped, an invalid escape being an error. The
authority is taken as the host as it is: the checks of the library on user
information, port and host are not modelled. -/
def Parse (rawURL : GoString) : Option URL :=
  let (u, frag) := Cut rawURL 35
  if stringContainsCTLByte u then none
  else if u = ascii "*" then
    (unescape frag).map (fun fragment => ⟨[], [], [], ascii "*", [], fragment⟩)
  else
    match getScheme u with
    | none => none
    | some (scheme, rest) =>
      let scheme := ToLower scheme
      let (rest, rawQuery) := Cut rest 63
      if rest.head? ≠ some 47 ∧ scheme ≠ [] then
        (unescape frag).map (fun fragment => ⟨scheme, rest, [], [], rawQuery, fragment⟩)
      else if rest.head? ≠ some 47 ∧ 58 ∈ (Cut rest 47).1 then none
      else
        let (host, rest) :=
          if (scheme ≠ [] ∨ rest.take 3 ≠ ascii "///") ∧ rest.take 2 = ascii "//" then
            let authority := rest.drop 2
            match Index authority 47 with
            | some i => (authority.take i, authority.drop i)
            | none => (authority, [])
          else ([], rest)
        match unescape rest with
        | none => none
        | some path =>
          (unescape frag).map (fun fragment => ⟨scheme, [], host, path, rawQuery, fragment⟩)

/-! ## The words of the specification -/

/-- The maximal runs of a string: consecutive bytes that are all inside or all
outside the class `[A-Za-z0-9]`, each run as long as possible. -/
def runs : GoString → List GoString
  | [] => []
  | c :: cs =>
    match runs cs with
    | (d :: ds) :: rest =>
      if isAlnum c = isAlnum d then (c :: d :: ds) :: rest else [c] :: (d :: ds) :: rest
    | _ => [[c]]

/-- A run of bytes outside `[A-Za-z0-9]` becomes a single hyphen; a run of bytes
inside the class stays. -/
def replaceRun (run : GoString) : GoString :=
  if run.all (fun c => !isAlnum c) then [hyphen] else run

/-- The slug of an identity as the specification words it: every maximal run of
characters outside `[A-Za-z0-9]` is replaced with a single hyphen, and the result
is lower-cased. -/
def slug (identity : GoString) : GoString :=
  ToLower ((runs identity).map replaceRun).flatten

/-- The segment of a name before its first hyphen. -/
def firstSegment (name : GoString) : GoString := name.takeWhile (fun c => c ≠ hyphen)

/-- The identity of a pull request: `"pr-"` followed by the decimal number. -/
def prIdentity (p : Int) : GoString := ascii "pr-" ++ Itoa p

/-- An orphan of the release backend as the specification words it: the name has a
hyphen, its first segment is a configured repository, and no branch and no pull
request of that repository derives the name. -/
def Orphan (config : Helm.Config) (name : GoString) : Prop :=
  hyphen ∈ name ∧
  ∃ rd, config.lookup (firstSegment name) = some rd ∧
    (∀ b ∈ rd.branches, Helm.releaseName (firstSegment name) b ≠ name) ∧
    (∀ p ∈ rd.pullRequests, Helm.releaseName (firstSegment name) (prIdentity p) ≠ name)

/-! ## The scenarios of the specification -/

/-- Scenario A: the repository `myapp` with the live branches `main` and `feature/x`
and no open pull request. -/
def scenarioConfig : Helm.Config :=
  [(ascii "myapp", ⟨ascii "acme", [ascii "main", ascii "feature/x"], []⟩)]

/-- Scenario A: the three releases. -/
def scenarioReleases : List Helm.Release :=
  [⟨ascii "myapp-main"⟩, ⟨ascii "myapp-feature-x"⟩, ⟨ascii "myapp-stale-thing"⟩]

/-- Scenario A with the branches listed in the other order, one of them twice. -/
def scenarioConfigReordered : Helm.Config :=
  [(ascii "myapp", ⟨ascii "acme", [ascii "feature/x", ascii "main", ascii "feature/x"], []⟩)]

/-- Scenario C: the releases of scenario A, a release of a repository that is not
configured, and a release whose name has no hyphen. -/
def unmanagedReleases : List Helm.Release :=
  ⟨ascii "unrelated-app-main"⟩ :: ⟨ascii "standalone"⟩ :: scenarioReleases

/-- The configuration of scenario A with one more repository, whose name holds a
hyphen. -/
def scenarioConfigHyphenated : Helm.Config :=
  (ascii "deployment-cleanup", ⟨ascii "Bankdata", [ascii "master"], [7]⟩) :: scenarioConfig

/-- The releases of scenario A and two releases named after the repository whose
name holds a hyphen. -/
def hyphenatedReleases : List Helm.Release :=
  ⟨ascii "deployment-cleanup-master"⟩ :: ⟨ascii "deployment-cleanup-gone"⟩ :: scenarioReleases

/-- A repository whose branch yields a name longer than 53 bytes. -/
def longBranchConfig : Helm.Config :=
  [(ascii "repository",
    ⟨ascii "acme", [ascii "feature/a-very-long-branch-name-that-exceeds-the-limit"], [42]⟩)]

/-- Scenario E: the snapshot of a repository with the live branches `release/1.0`
and `master`. -/
def scenarioRepo : Storage.RepositoryData :=
  ⟨ascii "acme", ascii "myapp", [ascii "release/1.0", ascii "master"]⟩

/-- Scenario E: a blob tagged with the live branch `release/1.0`. -/
def liveBlob : Storage.BlobItem :=
  ⟨ascii "build-1.tgz", [(ascii "commit", ascii "abc"), (ascii "branch", ascii "release/1.0")]⟩

/-- Scenario E: a blob tagged with the branch `old-branch`, which is not live. -/
def staleBlob : Storage.BlobItem :=
  ⟨ascii "build-2.tgz", [(ascii "branch", ascii "old-branch")]⟩

/-- A blob tagged `Release/1.0`, which differs from the live branch `release/1.0` in
the case of one letter. -/
def otherCaseBlob : Storage.BlobItem :=
  ⟨ascii "build-3.tgz", [(ascii "branch", ascii "Release/1.0")]⟩

/-- The value of `u.String()` for the storage account `acct` and the repository of
scenario E. -/
def scenarioBase : GoString := ascii "https://acct.blob.core.windows.net/acme-myapp"

/-- A blob tagged with a branch that is not live, whose name holds a `?`. -/
def queryBlob : Storage.BlobItem :=
  ⟨ascii "a?b.tgz", [(ascii "branch", ascii "old-branch")]⟩

/-- A blob tagged with a branch that is not live, whose name holds a `%` that is not
followed by two hexadecimal digits. -/
def percentBlob : Storage.BlobItem :=
  ⟨ascii "50%off.tgz", [(ascii "branch", ascii "old-branch")]⟩

/-! ## Lemmas on the string functions -/

theorem isAlnum_toLowerByte (c : Nat) : isAlnum (toLowerByte c) = isAlnum c := by
  unfold toLowerByte isAlnum
  split
  · next h =>
    have h1 : decide (65 ≤ c) = true := by simp [h.1]
    have h2 : decide (c ≤ 90) = true := by simp [h.2]
    have h3 : decide (97 ≤ c + 32) = true := by simp; omega
    have h4 : decide (c + 32 ≤ 122) = true := by simp; omega
    simp [h1, h2, h3, h4]
  · rfl

theorem toLowerByte_idem (c : Nat) : toLowerByte (toLowerByte c) = toLowerByte c := by
  unfold toLowerByte
  split_ifs <;> omega

theorem toLower_idem (s : GoString) : ToLower (ToLower s) = ToLower s := by
  simp [ToLower, toLowerByte_idem]

theorem isAlnum_hyphen : isAlnum hyphen = false := by decide

theorem toLowerByte_hyphen : toLowerByte hyphen = hyphen := by decide

theorem runs_step (c : Nat) (cs : GoString) (d : Nat) (ds : GoString) (rest : List GoString)
    (h : runs cs = (d :: ds) :: rest) :
    runs (c :: cs) =
      if isAlnum c = isAlnum d then (c :: d :: ds) :: rest else [c] :: (d :: ds) :: rest := by
  rw [runs, h]

/-- The first run of a non-empty string starts with the first byte and holds only
bytes of its class. -/
theorem runs_cons (d : Nat) (ds : GoString) :
    ∃ e rest, runs (d :: ds) = (d :: e) :: rest ∧ ∀ x ∈ e, isAlnum x = isAlnum d := by
  induction ds generalizing d with
  | nil => exact ⟨[], [], rfl, by simp⟩
  | cons a as ih =>
    obtain ⟨e, rest, he, hcl⟩ := ih a
    by_cases h : isAlnum d = isAlnum a
    · refine ⟨a :: e, rest, ?_, ?_⟩
      · rw [runs_step d (a :: as) a e rest he, if_pos h]
      · intro x hx
        rcases List.mem_cons.1 hx with rfl | hx
        · exact h.symm
        · rw [hcl x hx, h]
    · refine ⟨[], (a :: e) :: rest, ?_, by simp⟩
      rw [runs_step d (a :: as) a e rest he, if_neg h]

theorem replaceRun_of_alnum (d : Nat) (e : GoString) (hd : isAlnum d = true) :
    replaceRun (d :: e) = d :: e := by
  simp [replaceRun, hd]

theorem replaceRun_of_not_alnum (d : Nat) (e : GoString) (hd : isAlnum d = false)
    (he : ∀ x ∈ e, isAlnum x = isAlnum d) : replaceRun (d :: e) = [hyphen] := by
  unfold replaceRun
  rw [if_pos]
  rw [List.all_eq_true]
  intro x hx
  rcases List.mem_cons.1 hx with rfl | hx
  · simp [hd]
  · simp [he x hx, hd]

theorem flatten_runs_cons (c : Nat) (cs : GoString) :
    ((runs (c :: cs)).map replaceRun).flatten =
      if isAlnum c then c :: replaceScan false cs else hyphen :: replaceScan true cs := by
  induction cs generalizing c with
  | nil =>
    cases hc : isAlnum c <;> simp [runs, replaceRun, replaceScan, hc]
  | cons d ds ih =>
    obtain ⟨e, rest, he, hcl⟩ := runs_cons d ds
    have ihd := ih d
    rw [he] at ihd
    simp only [List.map_cons, List.flatten_cons] at ihd
    rw [runs_step c (d :: ds) d e rest he]
    cases hc : isAlnum c <;> cases hd : isAlnum d
    · have hrun : replaceRun (c :: d :: e) = [hyphen] :=
        replaceRun_of_not_alnum c (d :: e) hc (by
          intro x hx
          rcases List.mem_cons.1 hx with rfl | hx
          · rw [hd, hc]
          · rw [hcl x hx, hd, hc])
      rw [replaceRun_of_not_alnum d e hd hcl] at ihd
      simp [hd] at ihd
      simp [hc, hd, hrun, replaceScan, ihd]
    · rw [replaceRun_of_alnum d e hd] at ihd
      simp [hd] at ihd
      have hrun : replaceRun [c] = [hyphen] := replaceRun_of_not_alnum c [] hc (by simp)
      simp [hc, hd, hrun, replaceScan, replaceRun_of_alnum d e hd, ihd]
    · rw [replaceRun_of_not_alnum d e hd hcl] at ihd
      simp [hd] at ihd
      simp [hc, hd, replaceRun_of_alnum c [] hc, replaceScan,
        replaceRun_of_not_alnum d e hd hcl, ihd]
    · rw [replaceRun_of_alnum d e hd] at ihd
      simp [hd] at ihd
      simp [hc, hd, replaceRun_of_alnum c (d :: e) hc, replaceScan, ihd]

/-- The scan of the regular expression replaces exactly the maximal runs of bytes
outside the class, each with one hyphen. -/
theorem replaceAllString_eq_runs (b : GoString) :
    ReplaceAllString b = ((runs b).map replaceRun).flatten := by
  cases b with
  | nil => simp [ReplaceAllString, replaceScan, runs]
  | cons c cs =>
    rw [flatten_runs_cons]
    cases hc : isAlnum c <;> simp [ReplaceAllString, replaceScan, hc]

theorem toLower_replaceAllString_eq_slug (b : GoString) :
    ToLower (ReplaceAllString b) = slug b := by
  rw [slug, replaceAllString_eq_runs]

/-- Scanning a transformed string again changes nothing, whatever the state of the
first scan, and a scan that started inside a match does not begin with a hyphen. -/
theorem replaceScan_toLower_replaceScan (b : GoString) :
    replaceScan false (ToLower (replaceScan false b)) = ToLower (replaceScan false b) ∧
    replaceScan false (ToLower (replaceScan true b)) = ToLower (replaceScan true b) ∧
    replaceScan true (ToLower (replaceScan true b)) = ToLower (replaceScan true b) := by
  induction b with
  | nil => simp [replaceScan, ToLower]
  | cons c cs ih =>
    obtain ⟨ih1, ih2, ih3⟩ := ih
    simp only [ToLower] at ih1 ih2 ih3
    cases hc : isAlnum c
    · simp [replaceScan, ToLower, hc, isAlnum_hyphen, toLowerByte_hyphen, ih2, ih3]
    · simp [replaceScan, ToLower, hc, isAlnum_toLowerByte, ih1]

theorem releaseName_eq_take (r b : GoString) :
    Helm.releaseName r b = (r ++ ascii "-" ++ ToLower (ReplaceAllString b)).take 53 := by
  unfold Helm.releaseName
  simp only
  split_ifs with h
  · rfl
  · rw [List.take_of_length_le (by omega)]

/-! ## Lemmas on the helm sweep -/

theorem index_of_mem (s : GoString) (sep : Nat) (h : sep ∈ s) :
    ∃ m, Index s sep = some m ∧ s.take m = s.takeWhile (fun c => c ≠ sep) := by
  induction s with
  | nil => simp at h
  | cons c cs ih =>
    by_cases hc : c = sep
    · exact ⟨0, by simp [Index, hc], by simp [List.takeWhile, hc]⟩
    · have hcs : sep ∈ cs := by
        rcases List.mem_cons.1 h with e | e
        · exact absurd e.symm hc
        · exact e
      obtain ⟨m, hm, ht⟩ := ih hcs
      exact ⟨m + 1, by simp [Index, hc, hm], by simp [List.takeWhile, hc, ht]⟩

theorem splitLoop_ne_nil (sep k : Nat) (s : GoString) :
    ∃ p rest, splitLoop sep k s = p :: rest := by
  cases k with
  | zero => exact ⟨s, [], rfl⟩
  | succ k =>
    cases h : Index s sep with
    | none => exact ⟨s, [], by simp [splitLoop, h]⟩
    | some m => exact ⟨s.take m, splitLoop sep k (s.drop (m + 1)), by simp only [splitLoop, h]⟩

/-- A name without a hyphen splits into itself alone. -/
theorem split_of_not_mem (s : GoString) (sep : Nat) (h : sep ∉ s) : Split s sep = [s] := by
  unfold Split Count
  rw [List.count_eq_zero.2 h]
  rfl

/-- A name with a hyphen splits into its first segment and at least one more part. -/
theorem split_of_mem (s : GoString) (sep : Nat) (h : sep ∈ s) :
    ∃ p rest, Split s sep = s.takeWhile (fun c => c ≠ sep) :: p :: rest := by
  obtain ⟨m, hm, ht⟩ := index_of_mem s sep h
  have hpos : 0 < s.count sep := List.count_pos_iff.2 h
  obtain ⟨k, hk⟩ : ∃ k, s.count sep = k + 1 := ⟨s.count sep - 1, by omega⟩
  obtain ⟨p, rest, hp⟩ := splitLoop_ne_nil sep k (s.drop (m + 1))
  refine ⟨p, rest, ?_⟩
  unfold Split Count
  rw [hk]
  simp only [splitLoop, hm, hp, ht]

theorem checkBranches_eq_true (repoName : GoString) (release : Helm.Release)
    (branches : List GoString) (matched : Bool) :
    Helm.checkBranches repoName release branches matched = true ↔
      matched = true ∨ ∃ b ∈ branches, Helm.releaseName repoName b = release.Name := by
  unfold Helm.checkBranches
  induction branches generalizing matched with
  | nil => simp
  | cons b bs ih =>
    rw [List.foldl_cons, ih]
    by_cases hb : Helm.releaseName repoName b = release.Name
    · simp [hb]
    · simp [hb]

theorem checkPullRequests_eq_true (repoName : GoString) (release : Helm.Release)
    (pullRequests : List Int) (matched : Bool) :
    Helm.checkPullRequests repoName release pullRequests matched = true ↔
      matched = true ∨
        ∃ p ∈ pullRequests, Helm.releaseName repoName (prIdentity p) = release.Name := by
  unfold Helm.checkPullRequests
  induction pullRequests generalizing matched with
  | nil => simp
  | cons p ps ih =>
    rw [List.foldl_cons, ih]
    by_cases hp : Helm.releaseName repoName (ascii "pr-" ++ Itoa p) = release.Name
    · simp [hp, prIdentity]
    · simp [hp, prIdentity]

/-- One iteration of the sweep in the terms of the first segment of the name. -/
theorem sweepStep_eq (config : Helm.Config) (deleted : List GoString) (release : Helm.Release) :
    Helm.sweepStep config deleted release =
      if hyphen ∈ release.Name then
        match config.lookup (firstSegment release.Name) with
        | some rd =>
          if Helm.checkPullRequests (firstSegment release.Name) release rd.pullRequests
              (Helm.checkBranches (firstSegment release.Name) release rd.branches false) then
            deleted
          else deleted ++ [release.Name]
        | none => deleted
      else deleted := by
  by_cases h : hyphen ∈ release.Name
  · obtain ⟨p, rest, hs⟩ := split_of_mem release.Name hyphen h
    rw [if_pos h]
    unfold Helm.sweepStep
    simp only [hs]
    simp only [firstSegment]
    simp
    split
    · split_ifs <;> simp_all
    · rfl
  · rw [if_neg h]
    unfold Helm.sweepStep
    simp [split_of_not_mem release.Name hyphen h]

/-- A name is appended by one iteration exactly when it is the name of the release
at hand and that release is an orphan. -/
theorem mem_sweepStep (config : Helm.Config) (deleted : List GoString)
    (release : Helm.Release) (n : GoString) :
    n ∈ Helm.sweepStep config deleted release ↔
      n ∈ deleted ∨ (release.Name = n ∧ Orphan config n) := by
  rw [sweepStep_eq]
  unfold Orphan
  by_cases h : hyphen ∈ release.Name
  · rw [if_pos h]
    cases hl : config.lookup (firstSegment release.Name) with
    | none =>
      simp only []
      constructor
      · exact fun hn => Or.inl hn
      · rintro (hn | ⟨rfl, -, rd, hrd, -⟩)
        · exact hn
        · rw [hl] at hrd
          cases hrd
    | some rd =>
      simp only []
      by_cases hm : Helm.checkPullRequests (firstSegment release.Name) release rd.pullRequests
          (Helm.checkBranches (firstSegment release.Name) release rd.branches false) = true
      · rw [if_pos hm]
        constructor
        · exact fun hn => Or.inl hn
        · rintro (hn | ⟨rfl, -, rd', hrd', hb, hp⟩)
          · exact hn
          · rw [hl] at hrd'
            cases hrd'
            rw [checkPullRequests_eq_true, checkBranches_eq_true] at hm
            rcases hm with (hf | ⟨b, hb1, hb2⟩) | ⟨p, hp1, hp2⟩
            · cases hf
            · exact absurd hb2 (hb b hb1)
            · exact absurd hp2 (hp p hp1)
      · rw [if_neg hm]
        rw [checkPullRequests_eq_true, checkBranches_eq_true] at hm
        simp only [List.mem_append, List.mem_singleton]
        constructor
        · rintro (hn | rfl)
          · exact Or.inl hn
          · refine Or.inr ⟨rfl, h, rd, hl, ?_, ?_⟩
            · exact fun b hb1 hb2 => hm (Or.inl (Or.inr ⟨b, hb1, hb2⟩))
            · exact fun p hp1 hp2 => hm (Or.inr ⟨p, hp1, hp2⟩)
        · rintro (hn | ⟨rfl, -⟩)
          · exact Or.inl hn
          · exact Or.inr rfl
  · rw [if_neg h]
    constructor
    · exact fun hn => Or.inl hn
    · rintro (hn | ⟨rfl, hh, -⟩)
      · exact hn
      · exact absurd hh h

theorem mem_foldl_sweepStep (config : Helm.Config) (releases : List Helm.Release)
    (deleted : List GoString) (n : GoString) :
    n ∈ releases.foldl (Helm.sweepStep config) deleted ↔
      n ∈ deleted ∨ ((∃ release ∈ releases, release.Name = n) ∧ Orphan config n) := by
  induction releases generalizing deleted with
  | nil => simp
  | cons r rs ih =>
    rw [List.foldl_cons, ih, mem_sweepStep]
    simp only [List.mem_cons, exists_eq_or_imp]
    tauto

/-- The sweep requests the deletion of exactly the listed names that are orphans. -/
theorem mem_sweep (config : Helm.Config) (releases : List Helm.Release) (n : GoString) :
    n ∈ Helm.sweep config releases ↔
      (∃ release ∈ releases, release.Name = n) ∧ Orphan config n := by
  unfold Helm.sweep
  rw [mem_foldl_sweepStep]
  simp

/-! ## The release name -/

/-- C3, as stated, fails: the repository part of the name keeps its case. For the
repository `MyApp` and the branch `main` the combined name has 10 characters and
`releaseName` returns `MyApp-main`, not `myapp-main`. -/
theorem releaseName_keeps_repository_case :
    (ToLower (ascii "MyApp") ++ ascii "-" ++ slug (ascii "main")).length ≤ 53 ∧
    (ascii "MyApp" ++ ascii "-" ++ slug (ascii "main")).length ≤ 53 ∧
    Helm.releaseName (ascii "MyApp") (ascii "main") = ascii "MyApp-main" ∧
    Helm.releaseName (ascii "MyApp") (ascii "main") ≠
      ToLower (ascii "MyApp") ++ ascii "-" ++ slug (ascii "main") := by
  decide

/-- C3, amended: for every repository name `r` and branch name `b` whose combined
name `r + "-" + slug(b)` is at most 53 characters, `releaseName(r, b)` equals
`r + "-" + slug(b)` with the repository name unchanged, where `slug(b)` replaces
every maximal run of characters outside `[A-Za-z0-9]` in `b` with a single hyphen
and lower-cases the result. -/
theorem releaseName_eq_repo_hyphen_slug (r b : GoString)
    (h : (r ++ ascii "-" ++ slug b).length ≤ 53) :
    Helm.releaseName r b = r ++ ascii "-" ++ slug b := by
  rw [releaseName_eq_take, toLower_replaceAllString_eq_slug]
  exact List.take_of_length_le h

theorem releaseName_eq_repo_hyphen_slug_witness :
    (ascii "MyApp" ++ ascii "-" ++ slug (ascii "Feature//_X y")).length ≤ 53 ∧
    Helm.releaseName (ascii "MyApp") (ascii "Feature//_X y") =
      ascii "MyApp" ++ ascii "-" ++ slug (ascii "Feature//_X y") :=
  ⟨by decide, releaseName_eq_repo_hyphen_slug (ascii "MyApp") (ascii "Feature//_X y") (by decide)⟩

/-- C4: for every repository name `r` and branch name `b` the length of
`releaseName(r, b)` is at most 53; when the untruncated candidate
`r + "-" + slug(b)` is longer than 53 the result is exactly its first 53 bytes,
and otherwise it is the candidate itself. -/
theorem releaseName_truncation (r b : GoString) :
    (Helm.releaseName r b).length ≤ 53 ∧
    ((r ++ ascii "-" ++ slug b).length > 53 →
      Helm.releaseName r b = (r ++ ascii "-" ++ slug b).take 53) ∧
    ((r ++ ascii "-" ++ slug b).length ≤ 53 →
      Helm.releaseName r b = r ++ ascii "-" ++ slug b) := by
  rw [releaseName_eq_take, toLower_replaceAllString_eq_slug]
  refine ⟨?_, fun _ => rfl, fun h => List.take_of_length_le h⟩
  rw [List.length_take]
  exact Nat.min_le_left _ _

theorem releaseName_truncation_witness :
    (ascii "repository" ++ ascii "-" ++
        slug (ascii "feature/a-very-long-branch-name-that-exceeds-the-limit")).length > 53 ∧
    Helm.releaseName (ascii "repository")
        (ascii "feature/a-very-long-branch-name-that-exceeds-the-limit") =
      ascii "repository-feature-a-very-long-branch-name-that-excee" :=
  ⟨by decide,
    ((releaseName_truncation (ascii "repository")
      (ascii "feature/a-very-long-branch-name-that-exceeds-the-limit")).2.1 (by decide)).trans
      (by decide)⟩

/-- C6: for every repository name `r` and branch names `b1`, `b2` whose slugs are
different strings and whose untruncated names `r + "-" + slug(b)` are both at most
53 characters, `releaseName(r, b1)` differs from `releaseName(r, b2)`. -/
theorem releaseName_ne_of_slug_ne (r b1 b2 : GoString) (hne : slug b1 ≠ slug b2)
    (h1 : (r ++ ascii "-" ++ slug b1).length ≤ 53)
    (h2 : (r ++ ascii "-" ++ slug b2).length ≤ 53) :
    Helm.releaseName r b1 ≠ Helm.releaseName r b2 := by
  rw [releaseName_eq_take, releaseName_eq_take, toLower_replaceAllString_eq_slug,
    toLower_replaceAllString_eq_slug, List.take_of_length_le h1, List.take_of_length_le h2]
  intro h
  exact hne (List.append_cancel_left h)

theorem releaseName_ne_of_slug_ne_witness :
    slug (ascii "feature/x") ≠ slug (ascii "feature/y") ∧
    Helm.releaseName (ascii "myapp") (ascii "feature/x") ≠
      Helm.releaseName (ascii "myapp") (ascii "feature/y") :=
  ⟨by decide,
    releaseName_ne_of_slug_ne (ascii "myapp") (ascii "feature/x") (ascii "feature/y")
      (by decide) (by decide) (by decide)⟩

/-- C7: the identity transformation of `releaseName` (replace every maximal run of
characters outside `[A-Za-z0-9]` with one hyphen, then lower-case) returns an
already transformed string unchanged, so `releaseName(r, transformed(b))` equals
`releaseName(r, b)` for every repository name `r`. -/
theorem transform_idempotent (b : GoString) :
    ToLower (ReplaceAllString (ToLower (ReplaceAllString b))) = ToLower (ReplaceAllString b) ∧
    slug (slug b) = slug b ∧
    ∀ r : GoString,
      Helm.releaseName r (ToLower (ReplaceAllString b)) = Helm.releaseName r b := by
  have h : ToLower (ReplaceAllString (ToLower (ReplaceAllString b))) =
      ToLower (ReplaceAllString b) := by
    unfold ReplaceAllString
    rw [(replaceScan_toLower_replaceScan b).1, toLower_idem]
  refine ⟨h, ?_, fun r => ?_⟩
  · rw [← toLower_replaceAllString_eq_slug b, ← toLower_replaceAllString_eq_slug, h]
  · rw [releaseName_eq_take, releaseName_eq_take, h]

/-! ## The helm sweep -/

theorem firstSegment_no_hyphen (name : GoString) : hyphen ∉ firstSegment name := by
  intro h
  have := List.mem_takeWhile_imp h
  simp at this

/-- The first segment of a derived name that has a hyphen is the repository name,
when the repository name has no hyphen; the cut at 53 bytes does not change it. -/
theorem firstSegment_releaseName (r b : GoString) (hr : hyphen ∉ r)
    (hn : hyphen ∈ Helm.releaseName r b) : firstSegment (Helm.releaseName r b) = r := by
  rw [releaseName_eq_take] at hn ⊢
  have hascii : ascii "-" = [hyphen] := rfl
  rw [hascii, List.append_assoc, List.take_append_eq_append_take] at hn ⊢
  by_cases hlen : r.length < 53
  · obtain ⟨k, hk⟩ : ∃ k, 53 - r.length = k + 1 := ⟨52 - r.length, by omega⟩
    rw [hk, List.take_of_length_le (by omega)]
    unfold firstSegment
    rw [List.takeWhile_append_of_pos]
    · simp [List.takeWhile]
    · intro a ha
      have : a ≠ hyphen := fun e => hr (e ▸ ha)
      simpa using this
  · exfalso
    have h0 : 53 - r.length = 0 := by omega
    rw [h0] at hn
    simp only [List.take_zero, List.append_nil] at hn
    exact hr (List.mem_of_mem_take hn)

/-- C1: for every configuration and every listed release whose name contains a
hyphen and whose segment before the first hyphen is a configured repository key
`k`, the helm sweep requests the deletion of that release if and only if no branch
`b` of `k` has `releaseName(k, b)` equal to the release name and no pull request
`p` of `k` has `releaseName(k, "pr-" + decimal(p))` equal to it. The decision
depends only on which branches and pull requests are present, not on their order. -/
theorem sweep_deletes_iff_no_live_identity (config : Helm.Config)
    (releases : List Helm.Release) (release : Helm.Release) (k : GoString)
    (rd : Helm.RepositoryData) (hrel : release ∈ releases)
    (hhyphen : hyphen ∈ release.Name) (hseg : firstSegment release.Name = k)
    (hcfg : config.lookup k = some rd) :
    (release.Name ∈ Helm.sweep config releases ↔
      (¬ ∃ b ∈ rd.branches, Helm.releaseName k b = release.Name) ∧
      (¬ ∃ p ∈ rd.pullRequests, Helm.releaseName k (prIdentity p) = release.Name)) ∧
    (∀ (config2 : Helm.Config) (rd2 : Helm.RepositoryData),
      config2.lookup k = some rd2 →
      (∀ b, b ∈ rd2.branches ↔ b ∈ rd.branches) →
      (∀ p, p ∈ rd2.pullRequests ↔ p ∈ rd.pullRequests) →
      (release.Name ∈ Helm.sweep config2 releases ↔
        release.Name ∈ Helm.sweep config releases)) := by
  have key : ∀ (c : Helm.Config) (d : Helm.RepositoryData), c.lookup k = some d →
      (release.Name ∈ Helm.sweep c releases ↔
        (¬ ∃ b ∈ d.branches, Helm.releaseName k b = release.Name) ∧
        (¬ ∃ p ∈ d.pullRequests, Helm.releaseName k (prIdentity p) = release.Name)) := by
    intro c d hc
    rw [mem_sweep]
    unfold Orphan
    rw [hseg]
    constructor
    · rintro ⟨-, -, d2, hd2, hb, hp⟩
      rw [hc] at hd2
      cases hd2
      exact ⟨fun ⟨b, hb1, hb2⟩ => hb b hb1 hb2, fun ⟨p, hp1, hp2⟩ => hp p hp1 hp2⟩
    · rintro ⟨hb, hp⟩
      exact ⟨⟨release, hrel, rfl⟩, hhyphen, d, hc,
        fun b hb1 hb2 => hb ⟨b, hb1, hb2⟩, fun p hp1 hp2 => hp ⟨p, hp1, hp2⟩⟩
  refine ⟨key config rd hcfg, ?_⟩
  intro config2 rd2 hcfg2 hbr hpr
  rw [key config rd hcfg, key config2 rd2 hcfg2]
  simp only [hbr, hpr]

theorem sweep_deletes_iff_no_live_identity_witness :
    Helm.sweep scenarioConfig scenarioReleases = [ascii "myapp-stale-thing"] ∧
    ascii "myapp-stale-thing" ∈ Helm.sweep scenarioConfig scenarioReleases ∧
    (ascii "myapp-stale-thing" ∈ Helm.sweep scenarioConfigReordered scenarioReleases ↔
      ascii "myapp-stale-thing" ∈ Helm.sweep scenarioConfig scenarioReleases) :=
  have h := sweep_deletes_iff_no_live_identity scenarioConfig scenarioReleases
    ⟨ascii "myapp-stale-thing"⟩ (ascii "myapp")
    ⟨ascii "acme", [ascii "main", ascii "feature/x"], []⟩
    (by decide) (by decide) (by decide) (by decide)
  ⟨by decide, h.1.2 (by decide),
    h.2 scenarioConfigReordered
      ⟨ascii "acme", [ascii "feature/x", ascii "main", ascii "feature/x"], []⟩
      (by decide) (by intro b; simp; tauto) (by intro p; simp)⟩

/-- C2: for every configuration and every release whose name contains no hyphen,
or whose segment before the first hyphen is not a key of the configuration map,
the helm sweep never requests the deletion of that release. -/
theorem sweep_ignores_unmanaged (config : Helm.Config) (releases : List Helm.Release)
    (name : GoString)
    (h : hyphen ∉ name ∨ config.lookup (firstSegment name) = none) :
    name ∉ Helm.sweep config releases := by
  rw [mem_sweep]
  rintro ⟨-, hh, rd, hrd, -⟩
  rcases h with h | h
  · exact h hh
  · rw [h] at hrd
    cases hrd

theorem sweep_ignores_unmanaged_witness :
    ascii "unrelated-app-main" ∉ Helm.sweep scenarioConfig unmanagedReleases ∧
    ascii "standalone" ∉ Helm.sweep scenarioConfig unmanagedReleases :=
  ⟨sweep_ignores_unmanaged scenarioConfig unmanagedReleases (ascii "unrelated-app-main")
      (Or.inr (by decide)),
    sweep_ignores_unmanaged scenarioConfig unmanagedReleases (ascii "standalone")
      (Or.inl (by decide))⟩

/-- C9: for every configuration, every configured repository name `r` that contains
no hyphen, and every branch `b` of `r` (respectively every pull request `p` of `r`),
the helm sweep never requests the deletion of a release whose name is
`releaseName(r, b)` (respectively `releaseName(r, "pr-" + decimal(p))`), also when
that name was cut to 53 bytes. -/
theorem sweep_keeps_live (config : Helm.Config) (releases : List Helm.Release)
    (r : GoString) (rd : Helm.RepositoryData) (hcfg : config.lookup r = some rd)
    (hr : hyphen ∉ r) :
    (∀ b ∈ rd.branches, Helm.releaseName r b ∉ Helm.sweep config releases) ∧
    (∀ p ∈ rd.pullRequests,
      Helm.releaseName r (prIdentity p) ∉ Helm.sweep config releases) := by
  have key : ∀ identity : GoString, Helm.releaseName r identity ∈ Helm.sweep config releases →
      (∀ b ∈ rd.branches, Helm.releaseName r b ≠ Helm.releaseName r identity) ∧
      (∀ p ∈ rd.pullRequests,
        Helm.releaseName r (prIdentity p) ≠ Helm.releaseName r identity) := by
    intro identity hmem
    rw [mem_sweep] at hmem
    obtain ⟨-, hh, rd2, hrd2, hb, hp⟩ := hmem
    rw [firstSegment_releaseName r identity hr hh] at hrd2 hb hp
    rw [hcfg] at hrd2
    cases hrd2
    exact ⟨hb, hp⟩
  constructor
  · intro b hb hmem
    exact (key b hmem).1 b hb rfl
  · intro p hp hmem
    exact (key (prIdentity p) hmem).2 p hp rfl

theorem sweep_keeps_live_witness :
    Helm.releaseName (ascii "repository")
        (ascii "feature/a-very-long-branch-name-that-exceeds-the-limit") =
      ascii "repository-feature-a-very-long-branch-name-that-excee" ∧
    ascii "repository-feature-a-very-long-branch-name-that-excee" ∉
      Helm.sweep longBranchConfig
        [⟨ascii "repository-feature-a-very-long-branch-name-that-excee"⟩,
          ⟨ascii "repository-pr-42"⟩] ∧
    Helm.releaseName (ascii "repository") (prIdentity 42) ∉
      Helm.sweep longBranchConfig
        [⟨ascii "repository-feature-a-very-long-branch-name-that-excee"⟩,
          ⟨ascii "repository-pr-42"⟩] :=
  have h := sweep_keeps_live longBranchConfig
    [⟨ascii "repository-feature-a-very-long-branch-name-that-excee"⟩,
      ⟨ascii "repository-pr-42"⟩]
    (ascii "repository")
    ⟨ascii "acme", [ascii "feature/a-very-long-branch-name-that-exceeds-the-limit"], [42]⟩
    (by decide) (by decide)
  ⟨by decide,
    h.1 (ascii "feature/a-very-long-branch-name-that-exceeds-the-limit") (by decide),
    h.2 42 (by decide)⟩

/-- C10: for every release list and every two configurations that agree on every
key without a hyphen, so that they differ only in entries whose key contains a
hyphen, the helm sweep requests the same deletions. -/
theorem sweep_ignores_hyphenated_keys (config1 config2 : Helm.Config)
    (releases : List Helm.Release)
    (h : ∀ k : GoString, hyphen ∉ k → config1.lookup k = config2.lookup k) :
    Helm.sweep config1 releases = Helm.sweep config2 releases := by
  have hstep : Helm.sweepStep config1 = Helm.sweepStep config2 := by
    funext deleted release
    rw [sweepStep_eq, sweepStep_eq, h _ (firstSegment_no_hyphen release.Name)]
  unfold Helm.sweep
  rw [hstep]

theorem sweep_ignores_hyphenated_keys_witness :
    Helm.sweep scenarioConfigHyphenated hyphenatedReleases =
      Helm.sweep scenarioConfig hyphenatedReleases :=
  sweep_ignores_hyphenated_keys scenarioConfigHyphenated scenarioConfig hyphenatedReleases
    (by
      intro k hk
      have hne : k ≠ ascii "deployment-cleanup" := by
        intro e
        exact hk (by rw [e]; decide)
      have hb : (k == ascii "deployment-cleanup") = false := beq_eq_false_iff_ne.2 hne
      simp only [scenarioConfigHyphenated, List.lookup, hb])

/-! ## The blob sweep -/

theorem keepLoop_eq_true (blob : Storage.BlobItem) (branches : List GoString) (keep : Bool) :
    Storage.keepLoop blob branches keep = true ↔
      keep = true ∨ Storage.metadataValue blob (ascii "branch") ∈ branches := by
  unfold Storage.keepLoop
  induction branches generalizing keep with
  | nil => simp
  | cons b bs ih =>
    rw [List.foldl_cons, ih]
    by_cases hb : b = Storage.metadataValue blob (ascii "branch")
    · simp [hb]
    · have hb2 : ¬ Storage.metadataValue blob (ascii "branch") = b := fun e => hb e.symm
      simp [hb, hb2]

theorem blobLoop_append (urlParse : GoString → Option URL) (base : GoString)
    (repo : Storage.RepositoryData) (pre rest : List Storage.BlobItem) (d0 d : List URL)
    (h : Storage.blobLoop urlParse base repo pre d0 = Outcome.completed d) :
    Storage.blobLoop urlParse base repo (pre ++ rest) d0 =
      Storage.blobLoop urlParse base repo rest d := by
  induction pre generalizing d0 with
  | nil =>
    simp only [Storage.blobLoop] at h
    cases h
    rfl
  | cons x xs ih =>
    simp only [Storage.blobLoop, List.cons_append] at h ⊢
    split_ifs at h ⊢ with hk
    · cases hp : urlParse (base ++ ascii "/" ++ x.Name) with
      | none =>
        rw [hp] at h
        cases h
      | some bu =>
        rw [hp] at h
        exact ih _ h
    · exact ih _ h

/-- C5 fails on the code: `handleRepo` hands the address of a blob that is not kept
to `url.Parse` and dereferences the result without looking at the error. When the
blobs listed before have been handled with the deletions `d`, and the next blob
carries a `branch` value that is no live branch while `url.Parse` fails on its
address, the run ends in a panic with the deletions `d`: neither this blob nor any
blob listed after it is requested for deletion, live or not. -/
theorem handleRepo_panics_on_unparsable_blob_name (urlParse : GoString → Option URL)
    (base : GoString) (repo : Storage.RepositoryData) (pre : List Storage.BlobItem)
    (blob : Storage.BlobItem) (rest : List Storage.BlobItem) (d : List URL)
    (hpre : Storage.handleRepo urlParse base repo pre none = Outcome.completed d)
    (hstale : ∀ branch ∈ repo.branches, Storage.metadataValue blob (ascii "branch") ≠ branch)
    (hparse : urlParse (base ++ ascii "/" ++ blob.Name) = none) :
    Storage.handleRepo urlParse base repo (pre ++ blob :: rest) none = Outcome.panicked d := by
  have hk : Storage.keepLoop blob repo.branches false = false := by
    rw [← Bool.not_eq_true, keepLoop_eq_true]
    rintro (h | h)
    · cases h
    · exact hstale _ h rfl
  show Storage.blobLoop urlParse base repo (pre ++ blob :: rest) [] = _
  rw [blobLoop_append urlParse base repo pre (blob :: rest) [] d hpre]
  simp only [Storage.blobLoop, hk, hparse, Bool.not_false, if_true]

theorem handleRepo_panics_on_unparsable_blob_name_witness :
    Parse (scenarioBase ++ ascii "/" ++ percentBlob.Name) = none ∧
    Storage.handleRepo Parse scenarioBase scenarioRepo [liveBlob, staleBlob] none =
      Outcome.completed
        [⟨ascii "https", [], ascii "acct.blob.core.windows.net",
          ascii "/acme-myapp/build-2.tgz", [], []⟩] ∧
    Storage.handleRepo Parse scenarioBase scenarioRepo
        ([liveBlob, staleBlob] ++ percentBlob :: [otherCaseBlob]) none =
      Outcome.panicked
        [⟨ascii "https", [], ascii "acct.blob.core.windows.net",
          ascii "/acme-myapp/build-2.tgz", [], []⟩] ∧
    Storage.handleRepo Parse scenarioBase scenarioRepo [queryBlob] none =
      Outcome.completed
        [⟨ascii "https", [], ascii "acct.blob.core.windows.net",
          ascii "/acme-myapp/a", ascii "b.tgz", []⟩] :=
  ⟨by decide, by decide,
    handleRepo_panics_on_unparsable_blob_name Parse scenarioBase scenarioRepo
      [liveBlob, staleBlob] percentBlob [otherCaseBlob]
      [⟨ascii "https", [], ascii "acct.blob.core.windows.net",
        ascii "/acme-myapp/build-2.tgz", [], []⟩]
      (by decide) (by decide) (by decide),
    by decide⟩

/-! ## Errors of the inventory listing -/

/-- C8 fails for the release backend: whatever error `client.ListReleases` returns,
`main` of `helm.go` prints it and is not fatal; it goes on to classify the releases
of the response and completes, with no deletion for the `nil` response that comes
with an error. The blob backend does stop: `handleRepo` is fatal for an error that
is not a storage error and for a storage error whose service code is not that of a
missing container. -/
theorem helm_main_listing_error_not_fatal (config : Helm.Config)
    (res : Option (List Helm.Release)) (e : Error) (urlParse : GoString → Option URL)
    (base : GoString) :
    Helm.main config res (some e) =
      ([e], Outcome.completed (Helm.sweep config (Helm.GetReleases res))) ∧
    Helm.main config none (some e) = ([e], Outcome.completed []) ∧
    Helm.main scenarioConfig none (some (Error.other (ascii "connection refused"))) =
      ([Error.other (ascii "connection refused")], Outcome.completed []) ∧
    Storage.handleRepo urlParse base scenarioRepo [liveBlob, staleBlob]
        (some (Error.other (ascii "connection refused"))) = Outcome.fatal [] ∧
    Storage.handleRepo urlParse base scenarioRepo [liveBlob, staleBlob]
        (some (Error.storageError (ascii "AuthenticationFailed"))) = Outcome.fatal [] ∧
    Storage.handleRepo urlParse base scenarioRepo [liveBlob, staleBlob]
        (some (Error.storageError Storage.ServiceCodeContainerNotFound)) =
      Outcome.completed [] :=
  ⟨rfl, rfl, rfl, rfl, rfl, rfl⟩

end DeploymentCleanup
